import Mathlib

/-!
Verification of the stream `sum` adapter of `src/stream/sum.rs`.

The fragment under `src/` contains only the `Sum` trait and its macro-generated
implementations: every implementation is `Box::pin(stream.fold(zero, add))`,
where `zero` is `0` (integer types), `Wrapping(0)` (wrapping integer types) or
`0.0` (float types), and `add` is the element type's addition.  The stream
abstraction and `StreamExt::fold` themselves are not part of the fragment, so
they are modelled from the specification (spec §3, §4.1, §4.2): the finite
sequences the testable properties quantify over are embedded as `List`, and
`fold` is the left-to-right reduction the spec describes.

Machine integers are embedded as `Nat` (unsigned, reduced modulo `2 ^ w`) and
`Int` (signed, wrapped into `[-2 ^ (w - 1), 2 ^ (w - 1))`), with `w` the bit
width.  The twelve integer instantiations `i8 i16 i32 i64 i128 isize u8 u16
u32 u64 u128 usize` of the `integer_sum!` macro are all instances of the
width-parametric definitions below; `isize`/`usize` correspond to the
platform's pointer width.  Overflow of the plain (non-`Wrapping`) types is
modelled as two's-complement wraparound, the release-mode semantics of Rust's
`Add::add`.
-/

namespace AsyncStd

/-- Modelled from the spec: "request next" of the LazySequence core (§4.1),
which is not part of the fragment.  It resolves either to the next element
together with the remainder of the sequence, or to the completion signal
(`none`); there is no failure state. -/
def requestNext {τ : Type} : List τ → Option (τ × List τ)
  | [] => none
  | x :: xs => some (x, xs)

/-- Modelled from the spec: the generic fold primitive `StreamExt::fold`
(§4.2), which `sum.rs` calls but does not define.  It repeatedly requests the
next element; while an element is available it replaces the accumulator with
`combine accumulator element`; on the completion signal it yields the final
accumulator. -/
def fold {τ α : Type} : List τ → α → (α → τ → α) → α
  | [], acc, _ => acc
  | x :: xs, acc, combine => fold xs (combine acc x) combine

/-- Unsigned machine addition at bit width `w`: two's-complement wraparound of
`uN::add` (release mode), and exactly the addition of `Wrapping<uN>`. -/
def uadd (w : Nat) (a b : Nat) : Nat := (a + b) % 2 ^ w

/-- Reduction of an integer into the signed range `[-2 ^ (w - 1), 2 ^ (w - 1))`
of an `iN` with bit width `w`. -/
def swrap (w : Nat) (x : Int) : Int := (x + 2 ^ (w - 1)) % 2 ^ w - 2 ^ (w - 1)

/-- Signed machine addition at bit width `w`: two's-complement wraparound of
`iN::add` (release mode), and exactly the addition of `Wrapping<iN>`. -/
def sadd (w : Nat) (a b : Int) : Int := swrap w (a + b)

/-- `<uN as Sum>::sum` from the `integer_sum!` macro (plain arm):
`stream.fold(0, Add::add)`. -/
def uSum (w : Nat) (xs : List Nat) : Nat := fold xs 0 (uadd w)

/-- `<iN as Sum>::sum` from the `integer_sum!` macro (plain arm):
`stream.fold(0, Add::add)`. -/
def iSum (w : Nat) (xs : List Int) : Int := fold xs 0 (sadd w)

/-- `<Wrapping<uN> as Sum>::sum` from the `integer_sum!` macro (`Wrapping`
arm): `stream.fold(Wrapping(0), Add::add)`.  `Wrapping<uN>` values are
embedded as their underlying `Nat` representative. -/
def wrappingUSum (w : Nat) (xs : List Nat) : Nat := fold xs 0 (uadd w)

/-- `<Wrapping<iN> as Sum>::sum` from the `integer_sum!` macro (`Wrapping`
arm): `stream.fold(Wrapping(0), Add::add)`. -/
def wrappingISum (w : Nat) (xs : List Int) : Int := fold xs 0 (sadd w)

/-- `impl Sum<&'a uN> for uN`: the by-reference implementation folds a stream
of references with the same zero and the same addition; each `Add::add`
dereferences its right operand.  References are embedded as values of an
arbitrary pointer type `ι` together with a dereference function. -/
def uSumRef {ι : Type} (w : Nat) (deref : ι → Nat) (ptrs : List ι) : Nat :=
  fold ptrs 0 (fun acc p => uadd w acc (deref p))

/-- `impl Sum<&'a iN> for iN`: the by-reference implementation for signed
integer types. -/
def iSumRef {ι : Type} (w : Nat) (deref : ι → Int) (ptrs : List ι) : Int :=
  fold ptrs 0 (fun acc p => sadd w acc (deref p))

/-- `impl Sum<&'a fN> for fN` from the `float_sum!` macro: the by-reference
float implementation folds a stream of references with the same zero and the
same addition, dereferencing each element; like `fSum` it is parametric in the
float type, its zero and its addition. -/
def fSumRef {ι F : Type} (fzero : F) (fadd : F → F → F) (deref : ι → F)
    (ptrs : List ι) : F :=
  fold ptrs fzero (fun acc p => fadd acc (deref p))

/-- `<fN as Sum>::sum` from the `float_sum!` macro:
`stream.fold(0.0, |a, b| a + b)`.  Floating-point arithmetic is left
uninterpreted: the definition is parametric in the float type, its zero and
its addition, which is all the refinement claim about the adapter shape
needs. -/
def fSum {F : Type} (fzero : F) (fadd : F → F → F) (xs : List F) : F :=
  fold xs fzero fadd

/-- Spec-side definition (§4.3, for the refinement claim): "for any numeric
type with a defined zero value and an addition operation, `sum(sequence)` is
`fold(zero, add)`". -/
def specSum {α : Type} (zero : α) (add : α → α → α) (xs : List α) : α :=
  fold xs zero add

/- ### Helper lemmas -/

theorem fold_uadd (w : Nat) (xs : List Nat) :
    ∀ a : Nat, a < 2 ^ w → fold xs a (uadd w) = (a + xs.sum) % 2 ^ w := by
  induction xs with
  | nil =>
    intro a ha
    simpa [fold] using (Nat.mod_eq_of_lt ha).symm
  | cons x xs ih =>
    intro a ha
    have h2 : 0 < 2 ^ w := pow_pos (by norm_num) w
    have hlt : (a + x) % 2 ^ w < 2 ^ w := Nat.mod_lt _ h2
    rw [fold, show uadd w a x = (a + x) % 2 ^ w from rfl, ih _ hlt,
      List.sum_cons, Nat.mod_add_mod, Nat.add_assoc]

theorem uSum_eq (w : Nat) (xs : List Nat) : uSum w xs = xs.sum % 2 ^ w := by
  have h := fold_uadd w xs 0 (pow_pos (by norm_num) w)
  simpa [uSum] using h

theorem swrap_emod (w : Nat) (x : Int) : swrap w x % 2 ^ w = x % 2 ^ w := by
  unfold swrap
  rw [Int.sub_emod, Int.emod_emod_of_dvd _ dvd_rfl, ← Int.sub_emod,
    add_sub_cancel_right]

theorem swrap_congr {w : Nat} {x y : Int} (h : x % 2 ^ w = y % 2 ^ w) :
    swrap w x = swrap w y := by
  unfold swrap
  rw [Int.add_emod x, Int.add_emod y, h]

theorem swrap_swrap (w : Nat) (x : Int) : swrap w (swrap w x) = swrap w x :=
  swrap_congr (swrap_emod w x)

theorem half_lt_pow {w : Nat} (hw : 1 ≤ w) : (2 : Int) ^ (w - 1) < 2 ^ w := by
  have hpow : (2 : Int) ^ w = 2 ^ (w - 1) * 2 := by
    rw [← pow_succ]
    congr 1
    omega
  have hpos : (0 : Int) < 2 ^ (w - 1) := pow_pos (by norm_num) _
  rw [hpow]
  nlinarith

theorem pow_split {w : Nat} (hw : 1 ≤ w) :
    (2 : Int) ^ w = 2 ^ (w - 1) + 2 ^ (w - 1) := by
  nth_rewrite 1 [show w = w - 1 + 1 by omega]
  rw [pow_succ]
  ring

theorem swrap_zero {w : Nat} (hw : 1 ≤ w) : swrap w 0 = 0 := by
  unfold swrap
  rw [zero_add, Int.emod_eq_of_lt (by positivity) (half_lt_pow hw), sub_self]

theorem swrap_range {w : Nat} (hw : 1 ≤ w) (x : Int) :
    -(2 ^ (w - 1)) ≤ swrap w x ∧ swrap w x < 2 ^ (w - 1) := by
  unfold swrap
  have hm : (0 : Int) < 2 ^ w := pow_pos (by norm_num) w
  have h1 : 0 ≤ (x + 2 ^ (w - 1)) % 2 ^ w := Int.emod_nonneg _ (ne_of_gt hm)
  have h2 : (x + 2 ^ (w - 1)) % 2 ^ w < 2 ^ w := Int.emod_lt_of_pos _ hm
  have hsplit := pow_split hw
  constructor
  · linarith
  · linarith

theorem fold_sadd (w : Nat) (xs : List Int) :
    ∀ a : Int, swrap w a = a → fold xs a (sadd w) = swrap w (a + xs.sum) := by
  induction xs with
  | nil =>
    intro a ha
    simpa [fold] using ha.symm
  | cons x xs ih =>
    intro a ha
    rw [fold, show sadd w a x = swrap w (a + x) from rfl,
      ih _ (swrap_swrap w (a + x))]
    refine swrap_congr ?_
    rw [List.sum_cons, Int.add_emod (swrap w (a + x)), swrap_emod,
      ← Int.add_emod, ← add_assoc]

theorem iSum_eq {w : Nat} (hw : 1 ≤ w) (xs : List Int) :
    iSum w xs = swrap w xs.sum := by
  have h := fold_sadd w xs 0 (swrap_zero hw)
  simpa [iSum] using h

theorem fold_count {τ α : Type} (f : α → τ → α) (xs : List τ) :
    ∀ (a : α) (k : Nat),
      (fold xs (a, k) (fun p x => (f p.1 x, p.2 + 1))).2 = k + xs.length := by
  induction xs with
  | nil => intro a k; simp [fold]
  | cons x xs ih =>
    intro a k
    rw [fold]
    simp only [ih, List.length_cons]
    omega

theorem fold_log {τ α : Type} (f : α → τ → α) (xs : List τ) :
    ∀ (a : α) (l : List τ),
      (fold xs (a, l) (fun p x => (f p.1 x, p.2 ++ [x]))).2 = l ++ xs := by
  induction xs with
  | nil => intro a l; simp [fold]
  | cons x xs ih =>
    intro a l
    rw [fold]
    simp only [ih]
    simp

theorem fold_map {τ σ α : Type} (g : σ → τ) (xs : List σ) :
    ∀ (a : α) (f : α → τ → α),
      fold (xs.map g) a f = fold xs a (fun acc s => f acc (g s)) := by
  induction xs with
  | nil => intro a f; rfl
  | cons x xs ih =>
    intro a f
    simp only [List.map_cons, fold]
    exact ih _ f

/- ### Claims -/

/-- C1: for every supported numeric type (a type with a defined zero value and
an addition operation) and every stream of its elements, `sum(sequence)`
equals `fold(zero, add)` applied to the same sequence: the sum adapter
introduces no additional state and no special-casing beyond instantiating the
generic fold with the type's zero and addition.  Covered for the plain
integer, `Wrapping` integer and float instantiations of the macros. -/
theorem sum_is_fold_zero_add :
    (∀ (w : Nat) (xs : List Nat), uSum w xs = specSum 0 (uadd w) xs) ∧
    (∀ (w : Nat) (xs : List Int), iSum w xs = specSum 0 (sadd w) xs) ∧
    (∀ (w : Nat) (xs : List Nat), wrappingUSum w xs = specSum 0 (uadd w) xs) ∧
    (∀ (w : Nat) (xs : List Int), wrappingISum w xs = specSum 0 (sadd w) xs) ∧
    (∀ (F : Type) (fz : F) (fa : F → F → F) (xs : List F),
      fSum fz fa xs = specSum fz fa xs) :=
  ⟨fun _ _ => rfl, fun _ _ => rfl, fun _ _ => rfl, fun _ _ => rfl,
    fun _ _ _ _ => rfl⟩

/-- C2: for every supported numeric type, `sum` over an empty sequence of that
type returns the type's zero value; in particular an empty sequence of 64-bit
unsigned integers sums to 0. -/
theorem sum_empty_is_zero :
    uSum 64 ([] : List Nat) = 0 ∧
    (∀ w : Nat, uSum w [] = 0) ∧
    (∀ w : Nat, iSum w [] = 0) ∧
    (∀ w : Nat, wrappingUSum w [] = 0) ∧
    (∀ w : Nat, wrappingISum w [] = 0) ∧
    (∀ (F : Type) (fz : F) (fa : F → F → F), fSum fz fa [] = fz) :=
  ⟨rfl, fun _ => rfl, fun _ => rfl, fun _ => rfl, fun _ => rfl,
    fun _ _ _ => rfl⟩

/-- C3: for every finite sequence of length n, `fold` invokes the
caller-supplied combine operation exactly n times (first conjunct, with the
combine instrumented to count its invocations), in strict production order
(second conjunct, with the combine instrumented to log the elements it is
invoked on), and the accumulator after processing element i depends only on
the accumulator after element i−1 and element i: `fold` satisfies the
left-to-right step equations of the third and fourth conjuncts, with no
reordering and no speculative invocation of combine. -/
theorem fold_combine_exactly_n_in_order {τ α : Type} (xs : List τ) (a : α)
    (f : α → τ → α) :
    (fold xs (a, 0) (fun p x => (f p.1 x, p.2 + 1))).2 = xs.length ∧
    (fold xs (a, ([] : List τ)) (fun p x => (f p.1 x, p.2 ++ [x]))).2 = xs ∧
    (∀ acc : α, fold ([] : List τ) acc f = acc) ∧
    (∀ (x : τ) (rest : List τ) (acc : α),
      fold (x :: rest) acc f = fold rest (f acc x) f) := by
  refine ⟨?_, ?_, fun _ => rfl, fun _ _ _ => rfl⟩
  · simpa using fold_count f xs a 0
  · simpa using fold_log f xs a []

/-- C4: for any two finite sequences S1 and S2 over a numeric type whose
addition is associative (every fixed-width integer type under wraparound), the
sum of the concatenation S1++S2 equals the addition of sum(S1) and sum(S2);
stated for the unsigned and the signed wraparound integer models. -/
theorem sum_append (w : Nat) (hw : 1 ≤ w) (s1 s2 : List Nat)
    (t1 t2 : List Int) :
    uSum w (s1 ++ s2) = uadd w (uSum w s1) (uSum w s2) ∧
    iSum w (t1 ++ t2) = sadd w (iSum w t1) (iSum w t2) := by
  constructor
  · rw [uSum_eq, uSum_eq, uSum_eq, List.sum_append, uadd, Nat.add_mod]
  · rw [iSum_eq hw, iSum_eq hw, iSum_eq hw, List.sum_append, sadd]
    refine swrap_congr ?_
    rw [Int.add_emod (swrap w t1.sum), swrap_emod, swrap_emod, ← Int.add_emod]

/-- Witness for `sum_append` at `w = 8`, `S1 = [200, 100]`, `S2 = [73]`,
`T1 = [120, 9]`, `T2 = [-1]`. -/
theorem sum_append_witness :
    1 ≤ 8 ∧
    (uSum 8 ([200, 100] ++ [73]) = uadd 8 (uSum 8 [200, 100]) (uSum 8 [73]) ∧
      iSum 8 ([120, 9] ++ [-1]) = sadd 8 (iSum 8 [120, 9]) (iSum 8 [-1])) :=
  ⟨by decide, sum_append 8 (by decide) [200, 100] [73] [120, 9] [-1]⟩

/-- C5: for every supported numeric type and every finite sequence of its
values, summing a stream of owned values and summing the equivalent stream of
references to the same values produce identical results: the by-reference
implementation folds with the same zero and the same addition, dereferencing
each element, so it neither alters accumulation order nor the accumulated
values.  The integer conjuncts cover the plain and the `Wrapping` types
(whose additions are the same `uadd`/`sadd`); the third conjunct covers the
float types, parametric in the float type, its zero and its addition. -/
theorem sum_ref_eq_sum_owned {ι : Type} (w : Nat) (derefU : ι → Nat)
    (derefI : ι → Int) (ptrs : List ι) :
    uSumRef w derefU ptrs = uSum w (ptrs.map derefU) ∧
    iSumRef w derefI ptrs = iSum w (ptrs.map derefI) ∧
    (∀ (F : Type) (fz : F) (fa : F → F → F) (derefF : ι → F),
      fSumRef fz fa derefF ptrs = fSum fz fa (ptrs.map derefF)) :=
  ⟨(fold_map derefU ptrs 0 (uadd w)).symm,
    (fold_map derefI ptrs 0 (sadd w)).symm,
    fun _ fz fa derefF => (fold_map derefF ptrs fz fa).symm⟩

/-- C6: the sum adapter inherits the element type's overflow behavior
unchanged from that type's addition operation (second conjunct: the `i8` sum
is exactly the fold of the type's two's-complement addition, with no clamping,
saturating or checked behavior added); in particular summing the sequence
`[i8::MAX, 1] = [127, 1]` yields `i8::MIN = -128`, the type's wraparound
result, which is also exactly what a single `i8` addition of the two elements
produces. -/
theorem sum_inherits_overflow :
    iSum 8 [127, 1] = -128 ∧
    (∀ xs : List Int, iSum 8 xs = fold xs 0 (sadd 8)) ∧
    sadd 8 127 1 = -128 :=
  ⟨by decide, fun _ => rfl, by decide⟩

/-- C7: `fold` and `sum` have no intrinsic failure mode.  First conjunct:
"request next" resolves only to an element or a completion signal, never a
failure state (and the completion signal arises exactly at exhaustion, second
conjunct).  Third conjunct: `fold` is driven entirely by "request next" — it
recurses while an element is available and resolves with the final accumulator
exactly when the sequence reports exhaustion, never aborting early on its own.
Fourth conjunct: `fold` invokes the combiner once per element of the whole
sequence, so no suffix is abandoned; any producer or combiner failure can only
live inside the element or accumulator type. -/
theorem fold_no_intrinsic_failure {τ α : Type} :
    (∀ xs : List τ, requestNext xs = none ∨
      ∃ x : τ, ∃ rest : List τ, requestNext xs = some (x, rest)) ∧
    (∀ xs : List τ, requestNext xs = none ↔ xs = []) ∧
    (∀ (xs : List τ) (a : α) (f : α → τ → α),
      fold xs a f =
        match requestNext xs with
        | none => a
        | some p => fold p.2 (f a p.1) f) ∧
    (∀ (xs : List τ) (a : α) (f : α → τ → α),
      (fold xs (a, 0) (fun p x => (f p.1 x, p.2 + 1))).2 = xs.length) := by
  refine ⟨?_, ?_, ?_, ?_⟩
  · intro xs
    cases xs with
    | nil => exact Or.inl rfl
    | cons x rest => exact Or.inr ⟨x, rest, rfl⟩
  · intro xs
    cases xs with
    | nil => simp [requestNext]
    | cons x rest => simp [requestNext]
  · intro xs a f
    cases xs with
    | nil => rfl
    | cons x rest => rfl
  · intro xs a f
    simpa using fold_count f xs a 0

/-- C9: for each of the twelve listed integer types T (all instances of the
width-parametric model, with `w` the bit width of T), a Sum implementation
also exists for `Wrapping<T>` whose initial accumulator is `Wrapping(0)`
(first two conjuncts); summing Wrapping values is total — `wrappingUSum` and
`wrappingISum` are total functions, and their results always lie in the
type's value range (fourth, sixth and seventh conjuncts) — and on overflow
wraps modulo `2 ^ w`, never panicking, for every finite input sequence (third
and fifth conjuncts: the result is the mathematical sum reduced modulo
`2 ^ w`, unsigned, resp. wrapped into the two's-complement range, signed). -/
theorem wrapping_sum_total_wraps_mod (w : Nat) (hw : 1 ≤ w) (xs : List Nat)
    (ys : List Int) :
    wrappingUSum w [] = 0 ∧
    wrappingISum w [] = 0 ∧
    wrappingUSum w xs = xs.sum % 2 ^ w ∧
    wrappingUSum w xs < 2 ^ w ∧
    wrappingISum w ys = swrap w ys.sum ∧
    -(2 ^ (w - 1)) ≤ wrappingISum w ys ∧
    wrappingISum w ys < 2 ^ (w - 1) := by
  have hm : 0 < 2 ^ w := pow_pos (by norm_num) w
  have hu : wrappingUSum w xs = xs.sum % 2 ^ w := uSum_eq w xs
  have hi : wrappingISum w ys = swrap w ys.sum := iSum_eq hw ys
  have hr := swrap_range hw ys.sum
  refine ⟨rfl, rfl, hu, ?_, hi, ?_, ?_⟩
  · rw [hu]; exact Nat.mod_lt _ hm
  · rw [hi]; exact hr.1
  · rw [hi]; exact hr.2

/-- Witness for `wrapping_sum_total_wraps_mod` at `w = 8` with the overflowing
inputs `[255, 1]` (unsigned) and `[127, 1]` (signed). -/
theorem wrapping_sum_total_wraps_mod_witness :
    1 ≤ 8 ∧
    (wrappingUSum 8 [] = 0 ∧
      wrappingISum 8 [] = 0 ∧
      wrappingUSum 8 [255, 1] = ([255, 1] : List Nat).sum % 2 ^ 8 ∧
      wrappingUSum 8 [255, 1] < 2 ^ 8 ∧
      wrappingISum 8 [127, 1] = swrap 8 ([127, 1] : List Int).sum ∧
      -(2 ^ (8 - 1)) ≤ wrappingISum 8 [127, 1] ∧
      wrappingISum 8 [127, 1] < 2 ^ (8 - 1)) :=
  ⟨by decide, wrapping_sum_total_wraps_mod 8 (by decide) [255, 1] [127, 1]⟩

/-- C10: for every supported integer type and every value x of that type, sum
over the singleton sequence [x] returns x exactly — the zero initial
accumulator is a left identity for the addition threaded through fold.  Stated
for the unsigned, signed and both Wrapping models, for every in-range value. -/
theorem sum_singleton_is_identity (w : Nat) (x : Nat) (y : Int) (hw : 1 ≤ w)
    (hx : x < 2 ^ w) (hy1 : -(2 ^ (w - 1)) ≤ y) (hy2 : y < 2 ^ (w - 1)) :
    uSum w [x] = x ∧ iSum w [y] = y ∧
    wrappingUSum w [x] = x ∧ wrappingISum w [y] = y := by
  have hu : uSum w [x] = x := by
    rw [uSum_eq]
    simpa using Nat.mod_eq_of_lt hx
  have hi : iSum w [y] = y := by
    rw [iSum_eq hw]
    simp only [List.sum_cons, List.sum_nil, add_zero]
    unfold swrap
    have hsplit := pow_split hw
    rw [Int.emod_eq_of_lt (by linarith) (by linarith)]
    ring
  exact ⟨hu, hi, hu, hi⟩

/-- Witness for `sum_singleton_is_identity` at `w = 8`, `x = 200`,
`y = -5`. -/
theorem sum_singleton_is_identity_witness :
    (1 ≤ 8 ∧ 200 < 2 ^ 8 ∧ -(2 ^ (8 - 1)) ≤ (-5 : Int) ∧
      (-5 : Int) < 2 ^ (8 - 1)) ∧
    (uSum 8 [200] = 200 ∧ iSum 8 [-5] = -5 ∧
      wrappingUSum 8 [200] = 200 ∧ wrappingISum 8 [-5] = -5) :=
  ⟨by decide,
    sum_singleton_is_identity 8 200 (-5) (by decide) (by decide) (by decide)
      (by decide)⟩

end AsyncStd
